import Mathlib

/-!
Verification development for `scripts/update_headers.py` of the DispCtrl
repository: a batch tool that rewrites koroFileHeader-style leading comment
blocks in C++ sources, filling author/date metadata from git history (or
filesystem timestamps as fallback).

File contents are modelled as `List Char` (one entry per character of the
decoded text).  Python string primitives used by the script (`str.count`,
`str.split`, `str.strip`, `str.splitlines`, substring search, the
`HEADER_RE` regex match) are embedded as executable Lean functions below;
subprocess and filesystem effects are passed in as explicit values.
-/

/-- Text of a file, one entry per character. -/
abbrev Str := List Char

/-- Characters of a Lean string literal. -/
def strL (s : String) : Str := s.data

/-- ASCII whitespace as matched by Python's `\s` / `str.strip` on the
characters that can occur here (space, tab, LF, CR, VT, FF). -/
def isPySpace (c : Char) : Bool :=
  c = ' ' || c = '\t' || c = '\n' || c = '\r' || c = '\x0b' || c = '\x0c'

/-- Index of the first occurrence of `pat` in `s` (Python `str.find` /
regex search semantics), `none` if absent. -/
def findSub (pat : Str) : Str → Option Nat
  | [] => if pat = ([] : Str) then some 0 else none
  | c :: rest =>
    if pat.isPrefixOf (c :: rest) then some 0
    else (findSub pat rest).map (· + 1)

/-- Python's `pat in s` substring test. -/
def containsSub (pat s : Str) : Bool := (findSub pat s).isSome

/-- Declarative substring occurrence, used in theorem statements. -/
def SubStr (pat s : Str) : Prop := ∃ a b, s = a ++ pat ++ b

/-- Worker for `countSub`: scans left to right; `skip > 0` means the scanner
is still inside a previously matched occurrence (non-overlapping count), so
the next `skip` characters are passed over without testing. -/
def countSkip (pat : Str) : Str → Nat → Nat
  | [], _ => 0
  | _ :: rest, skip + 1 => countSkip pat rest skip
  | c :: rest, 0 =>
    if pat.isPrefixOf (c :: rest) then 1 + countSkip pat rest (pat.length - 1)
    else countSkip pat rest 0

/-- Python `s.count(pat)` for a nonempty `pat`: number of non-overlapping
occurrences scanning left to right.  (The script only counts `'\n'` and
`'\r\n'`; Python's special empty-pattern behaviour is irrelevant here.) -/
def countSub (pat : Str) (s : Str) : Nat := countSkip pat s 0

/-- The string `"\n"`. -/
def lfS : Str := strL "\n"

/-- The string `"\r\n"`. -/
def crlfS : Str := strL "\r\n"

/-- Number of bare `'\n'` characters, i.e. newlines that are not the second
half of a `"\r\n"` pair.  (Not part of the script; used to state what its
EOL vote computes.) -/
def loneLF : Str → Nat
  | [] => 0
  | [c] => if c = '\n' then 1 else 0
  | c :: d :: rest =>
    if c = '\r' ∧ d = '\n' then loneLF rest
    else (if c = '\n' then 1 else 0) + loneLF (d :: rest)

/-- `detect_eol` (update_headers.py lines 75-79):
`if '\r\n' in text and text.count('\r\n') >= text.count('\n') - text.count('\r\n'): return '\r\n'`
`return '\n'`.  The subtraction is on Python integers, hence `Int`. -/
def detect_eol (text : Str) : Str :=
  if containsSub crlfS text = true ∧
      (countSub crlfS text : Int) ≥ (countSub lfS text : Int) - (countSub crlfS text : Int) then
    crlfS
  else
    lfS

/-- Python `str.strip()` restricted to the ASCII whitespace of `isPySpace`. -/
def pyStrip (s : Str) : Str :=
  ((s.dropWhile isPySpace).reverse.dropWhile isPySpace).reverse

/-- `s.split(pat)[0]`: the prefix of `s` before the first occurrence of
`pat`, or all of `s` when `pat` does not occur. -/
def splitHead (pat s : Str) : Str :=
  match findSub pat s with
  | none => s
  | some i => s.take i

/-- `normalize_datetime` (lines 67-72): `if not dt: return None` then
`dt.split(' +')[0].strip()`. -/
def normalize_datetime (dt : Option Str) : Option Str :=
  match dt with
  | none => none
  | some [] => none
  | some s => some (pyStrip (splitHead (strL " +") s))

/-- Worker for `splitlines`: accumulates the current line (reversed) and
cuts at `\r\n`, `\r` or `\n`; after a final terminator no empty trailing
line is produced (Python `str.splitlines` semantics for these
terminators). -/
def slGo (acc : Str) : Str → List Str
  | [] => [acc.reverse]
  | '\r' :: '\n' :: rest => acc.reverse :: (if rest = [] then [] else slGo [] rest)
  | '\r' :: rest => acc.reverse :: (if rest = [] then [] else slGo [] rest)
  | '\n' :: rest => acc.reverse :: (if rest = [] then [] else slGo [] rest)
  | c :: rest => slGo (c :: acc) rest

/-- Python `str.splitlines` (on the terminators git output can contain). -/
def splitlines : Str → List Str
  | [] => []
  | s => slGo [] s

/-- Outcome of one `subprocess.check_output(['git', ...])` call:
the decoded stdout on success, a `CalledProcessError` (nonzero exit), or an
exception of any other class (e.g. `FileNotFoundError` when the `git`
executable is missing). -/
inductive GitRes where
  | ok (out : Str)
  | procError
  | exc
deriving DecidableEq, Repr

/-- `run_git` (lines 35-40): returns the stripped output; the `except`
clause catches exactly `subprocess.CalledProcessError` and turns it into
`''`; any other exception propagates (modelled as `Except.error`). -/
def run_git (r : GitRes) : Except Unit Str :=
  match r with
  | .ok out => .ok (pyStrip out)
  | .procError => .ok []
  | .exc => .error ()

/-- `get_git_dates` (lines 43-50): creation query (taking the last line of
the output when nonempty), then last-commit query; empty strings become
`None` (`created or None`, `last or None`). -/
def get_git_dates (qc ql : GitRes) : Except Unit (Option Str × Option Str) := do
  let created ← run_git qc
  let created := if created ≠ ([] : Str) then (splitlines created).getLastD [] else created
  let last ← run_git ql
  pure (if created = ([] : Str) then none else some created,
        if last = ([] : Str) then none else some last)

/-- `get_fs_dates` (lines 53-64).  `st` is the result of `path.stat()`:
`none` when it raised, otherwise `(st_ctime, st_mtime)`.  POSIX timestamps
are modelled as `Int`; `fmt` stands for
`fun ts => datetime.fromtimestamp(ts).strftime('%Y-%m-%d %H:%M:%S')`. -/
def get_fs_dates (fmt : Int → Str) (st : Option (Int × Int)) : Option Str × Option Str :=
  match st with
  | none => (none, none)
  | some (ctime, mtime) => (some (fmt (min ctime mtime)), some (fmt mtime))

/-- The fallback block of `update_file` (lines 112-118): when either git
date is missing, substitute the filesystem-derived value. -/
def fallback_dates (created last : Option Str) (fmt : Int → Str)
    (st : Option (Int × Int)) : Option Str × Option Str :=
  if created = none ∨ last = none then
    ((if created = none then (get_fs_dates fmt st).1 else created),
     (if last = none then (get_fs_dates fmt st).2 else last))
  else
    (created, last)

/-- The `--mode` flag. -/
inductive Mode where
  | git
  | commit
deriving DecidableEq, Repr

/-- Joining with a separator, Python `sep.join(parts)`. -/
def joinL (sep : Str) : List Str → Str
  | [] => []
  | [x] => x
  | x :: y :: rest => x ++ sep ++ joinL sep (y :: rest)

/-- `build_header` (lines 82-96): the fixed 8-line template joined with the
detected EOL (the trailing `''` entry makes the block end with one EOL). -/
def build_header (date_created date_last : Option Str) (eol : Str) : Str :=
  joinL eol
    [strL "/*",
     strL " * @Author: wuxiaoxiao",
     strL " * @Email: wuxiaoxiao@gmail.com",
     strL " * @Date: " ++ date_created.getD [],
     strL " * @LastEditors: wuxiaoxiao",
     strL " * @LastEditTime: " ++ date_last.getD [],
     strL " * @Description: ",
     strL " */",
     []]

/-- The string `"/*"`. -/
def openC : Str := strL "/*"

/-- The string `"*/"`. -/
def closeC : Str := strL "*/"

/-- `HEADER_RE.match(orig)` for `HEADER_RE = re.compile(r"^/\*[\s\S]*?\*/\s*", re.M)`:
anchored at position 0, the opening marker, a lazy run up to the first
closing marker at index >= 2, then a greedy whitespace run.  Returns the
matched block and the remainder of the text. -/
def leadingBlock (s : Str) : Option (Str × Str) :=
  if openC.isPrefixOf s then
    match findSub closeC (s.drop 2) with
    | none => none
    | some i =>
      some (s.take (2 + i + 2) ++ (s.drop (2 + i + 2)).takeWhile isPySpace,
            (s.drop (2 + i + 2)).dropWhile isPySpace)
  else
    none

/-- The marker test of `update_file` (line 127): `('@Author' in block) or
('Author:' in block) or ('@LastEditTime' in block) or ('LastEditTime' in block)`. -/
def hasMarkerTok (block : Str) : Bool :=
  containsSub (strL "@Author") block || containsSub (strL "Author:") block ||
    containsSub (strL "@LastEditTime") block || containsSub (strL "LastEditTime") block

/-- The pure tail of `update_file` (lines 104-151) once the two dates are
derived: EOL detection, the commit-mode stamp (`now` is
`datetime.now().strftime(...)`), header synthesis, the splice decision, and
the write-back test.  Returns the composed text and whether the file would
be written (`new_text != orig`).  The `PermissionError` retry around the
actual write call is an I/O detail outside this model. -/
def update_content (orig : Str) (created last : Option Str) (mode : Mode) (now : Str) :
    Str × Bool :=
  let eol := detect_eol orig
  let lastF := if mode = Mode.commit then some now else last
  let header := build_header created lastF eol
  let new_text :=
    match leadingBlock orig with
    | some (block, rest) => if hasMarkerTok block then header ++ rest else header ++ orig
    | none => header ++ orig
  if new_text = orig then (new_text, false) else (new_text, true)

/-- `update_file` (lines 104-151) end to end: git queries (whose
uncaught exceptions propagate), normalization, filesystem fallback, then
the pure splice.  `Except.error` means an exception escaped `update_file`
into the per-file handler of `main`. -/
def update_file (orig : Str) (qc ql : GitRes) (fmt : Int → Str)
    (st : Option (Int × Int)) (mode : Mode) (now : Str) : Except Unit (Str × Bool) := do
  let (cg, lg) ← get_git_dates qc ql
  let created := normalize_datetime cg
  let last := normalize_datetime lg
  let (created, last) := fallback_dates created last fmt st
  pure (update_content orig created last mode now)

/-- Lexicographic comparison of texts (string `<=`), used to state the
`Date <= LastEditTime` property. -/
def strLeB : Str → Str → Bool
  | [], _ => true
  | _ :: _, [] => false
  | a :: as, b :: bs => if a < b then true else if a = b then strLeB as bs else false

/-- Worker for `splitOnL`; `acc` is the current piece, reversed, and
`skip > 0` means the scanner is still inside an already-matched separator.
The `sep ≠ []` guard matches Python, where `str.split('')` is an error. -/
def splitSkip (sep : Str) : Str → Str → Nat → List Str
  | [], acc, _ => [acc.reverse]
  | _ :: rest, acc, skip + 1 => splitSkip sep rest acc skip
  | c :: rest, acc, 0 =>
    if sep ≠ ([] : Str) ∧ sep.isPrefixOf (c :: rest) then
      acc.reverse :: splitSkip sep rest [] (sep.length - 1)
    else
      splitSkip sep rest (c :: acc) 0

/-- Python `s.split(sep)` for nonempty `sep`. -/
def splitOnL (sep s : Str) : List Str := splitSkip sep s [] 0

/-- `SKIP_DIRS` (lines 28-30). -/
def SKIP_DIRS : List Str :=
  [strL "build", strL "bin", strL "CMakeFiles", strL "DispCtrl_autogen",
   strL ".git", strL ".vscode"]

/-- `TARGET_EXTS` (line 22). -/
def TARGET_EXTS : List Str := [strL ".cpp", strL ".h", strL ".hpp"]

/-- `os.path.isabs` on POSIX: the path starts with a separator. -/
def os_isabs (f : Str) : Bool := (strL "/").isPrefixOf f

/-- `REPO_ROOT / f` for a relative `f`: pathlib joins with one separator
(the abstract root carries no trailing separator). -/
def pathJoin (root f : Str) : Str := root ++ strL "/" ++ f

/-- Line 163: `p = (REPO_ROOT / f) if not os.path.isabs(f) else Path(f)`. -/
def resolve_arg (root f : Str) : Str :=
  if os_isabs f then f else pathJoin root f

/-- Index of the last `'.'` in a name, as in pathlib's `name.rfind('.')`. -/
def rfindDot (s : Str) : Option Nat :=
  match findSub (strL ".") s.reverse with
  | none => none
  | some j => some (s.length - 1 - j)

/-- pathlib `Path(p).suffix`: from the last dot of the final component,
provided that dot is neither the first nor the last character. -/
def path_suffix (p : Str) : Str :=
  let name := (splitOnL (strL "/") p).getLastD []
  match rfindDot name with
  | none => []
  | some i => if 0 < i ∧ i < name.length - 1 then name.drop i else []

/-- `should_skip` (lines 99-101): some ancestor directory name is in
`SKIP_DIRS`.  Ancestor names are the path components except the last. -/
def should_skip (p : Str) : Bool :=
  ((splitOnL (strL "/") p).dropLast).any (fun name => SKIP_DIRS.contains name)

/-- The filter applied to each candidate path (lines 164-165):
`p.suffix in TARGET_EXTS and p.is_file() and not should_skip(p)`.
`is_file` abstracts the filesystem query. -/
def target_ok (is_file : Str → Bool) (p : Str) : Bool :=
  TARGET_EXTS.contains (path_suffix p) && is_file p && !should_skip p

/-- `list_target_files` (lines 161-168).  `scan` is the traversal order of
`REPO_ROOT.rglob('*')`, used only when no explicit files are passed. -/
def list_target_files (root : Str) (is_file : Str → Bool) (scan : List Str)
    (files : List Str) : List Str :=
  match files with
  | [] => scan.filter (target_ok is_file)
  | _ :: _ => (files.map (resolve_arg root)).filter (target_ok is_file)

/-- The warning printed by `main` (line 181). -/
def warnLine (name e : Str) : Str :=
  strL "[WARN] Failed updating " ++ name ++ strL ": " ++ e

/-- The summary printed by `main` (line 183). -/
def summaryLine (n : Nat) : Str :=
  strL "Updated headers in " ++ (Nat.repr n).data ++ strL " file(s)"

/-- The `for f in files` loop of `main` (lines 176-181).  `f` abstracts
`update_file` on a concrete file: `Except.error e` is an exception whose
message formats as `e`.  Returns the changed count and the warnings in
print order. -/
def main_loop (f : Str → Except Str Bool) : List Str → Nat → Nat × List Str
  | [], changed => (changed, [])
  | x :: xs, changed =>
    match f x with
    | .ok true => main_loop f xs (changed + 1)
    | .ok false => main_loop f xs changed
    | .error e =>
      let r := main_loop f xs changed
      (r.1, warnLine x e :: r.2)

/-- `main` (lines 173-184): run the loop from `changed = 0`, print the
summary, return 0.  Result: (changed count, stdout lines, exit status). -/
def main_run (f : Str → Except Str Bool) (files : List Str) : Nat × List Str × Nat :=
  let r := main_loop f files 0
  (r.1, r.2 ++ [summaryLine r.1], 0)

/-- Characters that can occur in a normalized timestamp
(`YYYY-MM-DD HH:MM:SS`): digits, `'-'`, `':'`, `' '`. -/
def tsChar (c : Char) : Bool := c.isDigit || c = '-' || c = ':' || c = ' '

/-- A (possibly absent) timestamp made only of `tsChar` characters. -/
def tsOk (o : Option Str) : Bool := (o.getD []).all tsChar

/-- The interior of a synthesized header: everything strictly between the
opening `/*` and the closing `*/`.  Used to expose the block structure of
`build_header`. -/
def header_mid (date_created date_last : Option Str) (eol : Str) : Str :=
  eol ++ strL " * @Author: wuxiaoxiao" ++ eol ++ strL " * @Email: wuxiaoxiao@gmail.com" ++
    eol ++ strL " * @Date: " ++ date_created.getD [] ++ eol ++
    strL " * @LastEditors: wuxiaoxiao" ++ eol ++ strL " * @LastEditTime: " ++
    date_last.getD [] ++ eol ++ strL " * @Description: " ++ eol ++ [' ']

/-! ### Lemmas about the substring scanner -/

theorem isPrefixOf_iff {l₁ l₂ : Str} : l₁.isPrefixOf l₂ = true ↔ l₁ <+: l₂ :=
  List.isPrefixOf_iff_prefix

theorem findSub_eq_some_iff {pat s : Str} {i : Nat} :
    findSub pat s = some i ↔ pat <+: s.drop i ∧ ∀ j, j < i → ¬ pat <+: s.drop j := by
  induction s generalizing i with
  | nil =>
    by_cases hp : pat = ([] : Str)
    · subst hp
      constructor
      · intro h
        simp [findSub] at h
        subst h
        exact ⟨ List.nil_prefix, fun j hj => absurd hj (Nat.not_lt_zero j)⟩
      · intro ⟨_, h2⟩
        rcases Nat.eq_zero_or_pos i with h0 | h0
        · subst h0; simp [findSub]
        · exact absurd (by simp) (h2 0 h0)
    · simp only [findSub, if_neg hp, List.drop_nil]
      constructor
      · intro h; cases h
      · intro ⟨h1, _⟩
        exact absurd (List.prefix_nil.mp h1) hp
  | cons c rest ih =>
    cases hx : pat.isPrefixOf (c :: rest) with
    | true =>
      have hpre := isPrefixOf_iff.mp hx
      simp only [findSub, hx, if_pos, Option.some.injEq]
      constructor
      · rintro rfl
        exact ⟨by simpa using hpre, fun j hj => absurd hj (Nat.not_lt_zero j)⟩
      · intro ⟨h1, h2⟩
        rcases Nat.eq_zero_or_pos i with h0 | h0
        · exact h0.symm
        · exact absurd (by simpa using hpre) (h2 0 h0)
    | false =>
      have hpre : ¬ pat <+: (c :: rest) := fun hp => by
        rw [isPrefixOf_iff.mpr hp] at hx
        cases hx
      simp only [findSub, hx, Bool.false_eq_true, if_false, Option.map_eq_some']
      constructor
      · rintro ⟨i', hi', rfl⟩
        obtain ⟨h1, h2⟩ := ih.mp hi'
        refine ⟨by simpa using h1, ?_⟩
        intro j hj
        cases j with
        | zero => simpa using hpre
        | succ j' =>
          rw [List.drop_succ_cons]
          exact h2 j' (Nat.lt_of_succ_lt_succ hj)
      · intro ⟨h1, h2⟩
        cases i with
        | zero => exact absurd (by simpa using h1) hpre
        | succ i' =>
          refine ⟨i', ih.mpr ⟨by simpa using h1, ?_⟩, rfl⟩
          intro j hj
          have := h2 (j + 1) (Nat.succ_lt_succ hj)
          simpa using this

theorem findSub_eq_none_iff {pat s : Str} :
    findSub pat s = none ↔ ∀ j, ¬ pat <+: s.drop j := by
  induction s with
  | nil =>
    by_cases hp : pat = ([] : Str)
    · subst hp
      simp [findSub]
    · simp only [findSub, if_neg hp, List.drop_nil, true_iff]
      intro j h
      exact absurd (List.prefix_nil.mp h) hp
  | cons c rest ih =>
    cases hx : pat.isPrefixOf (c :: rest) with
    | true =>
      have hpre := isPrefixOf_iff.mp hx
      simp only [findSub, hx, if_pos]
      constructor
      · intro h; cases h
      · intro h
        exact absurd (by simpa using hpre : pat <+: (c :: rest).drop 0) (h 0)
    | false =>
      have hpre : ¬ pat <+: (c :: rest) := fun hp => by
        rw [isPrefixOf_iff.mpr hp] at hx
        cases hx
      simp only [findSub, hx, Bool.false_eq_true, if_false, Option.map_eq_none']
      rw [ih]
      constructor
      · intro h j
        cases j with
        | zero => simpa using hpre
        | succ j' => rw [List.drop_succ_cons]; exact h j'
      · intro h j
        have := h (j + 1)
        simpa using this

theorem SubStr_iff_containsSub {pat s : Str} : SubStr pat s ↔ containsSub pat s = true := by
  constructor
  · rintro ⟨a, b, rfl⟩
    unfold containsSub
    cases hfs : findSub pat (a ++ pat ++ b) with
    | some i => simp
    | none =>
      exfalso
      have := findSub_eq_none_iff.mp hfs a.length
      apply this
      have : (a ++ pat ++ b).drop a.length = pat ++ b := by
        rw [List.append_assoc, List.drop_left]
      rw [this]
      exact ⟨b, rfl⟩
  · intro h
    unfold containsSub at h
    cases hfs : findSub pat s with
    | none => rw [hfs] at h; cases h
    | some i =>
      obtain ⟨h1, _⟩ := findSub_eq_some_iff.mp hfs
      obtain ⟨b, hb⟩ := h1
      refine ⟨s.take i, b, ?_⟩
      rw [List.append_assoc, hb, List.take_append_drop]

theorem takeWhile_append_eq {p : Char → Bool} (ws rest : Str)
    (h1 : ∀ c ∈ ws, p c = true) (h2 : ∀ c cs, rest = c :: cs → p c = false) :
    (ws ++ rest).takeWhile p = ws ∧ (ws ++ rest).dropWhile p = rest := by
  induction ws with
  | nil =>
    cases rest with
    | nil => simp
    | cons c cs =>
      have := h2 c cs rfl
      simp [List.takeWhile_cons, List.dropWhile_cons, this]
  | cons a ws ih =>
    have ha := h1 a (by simp)
    have ih' := ih (fun c hc => h1 c (by simp [hc]))
    simp [List.takeWhile_cons, List.dropWhile_cons, ha, ih'.1, ih'.2]

theorem leadingBlock_spec (mid ws rest : Str)
    (hfirst : ∀ j, j < mid.length → ¬ closeC <+: ((mid ++ closeC ++ (ws ++ rest)).drop j))
    (hws : ∀ c ∈ ws, isPySpace c = true)
    (hrest : isPySpace (rest.headD 'x') = false) :
    leadingBlock (openC ++ mid ++ closeC ++ ws ++ rest) =
      some (openC ++ mid ++ closeC ++ ws, rest) := by
  have hopen : openC.isPrefixOf (openC ++ mid ++ closeC ++ ws ++ rest) = true := by
    apply isPrefixOf_iff.mpr
    exact ⟨mid ++ closeC ++ ws ++ rest, by simp [List.append_assoc]⟩
  have hdrop2 : (openC ++ mid ++ closeC ++ ws ++ rest).drop 2 = mid ++ closeC ++ (ws ++ rest) := by
    have : openC ++ mid ++ closeC ++ ws ++ rest = openC ++ (mid ++ closeC ++ (ws ++ rest)) := by
      simp [List.append_assoc]
    rw [this, List.drop_left' (by decide : (openC : Str).length = 2)]
  have hfind : findSub closeC ((openC ++ mid ++ closeC ++ ws ++ rest).drop 2) = some mid.length := by
    rw [hdrop2]
    apply findSub_eq_some_iff.mpr
    refine ⟨?_, hfirst⟩
    have : (mid ++ closeC ++ (ws ++ rest)).drop mid.length = closeC ++ (ws ++ rest) := by
      rw [List.append_assoc, List.drop_left]
    rw [this]
    exact ⟨ws ++ rest, rfl⟩
  have htake : (openC ++ mid ++ closeC ++ ws ++ rest).take (2 + mid.length + 2) =
      openC ++ mid ++ closeC := by
    have h' : openC ++ mid ++ closeC ++ ws ++ rest = (openC ++ mid ++ closeC) ++ (ws ++ rest) := by
      simp [List.append_assoc]
    rw [h', List.take_left' (by simp [openC, closeC, strL]; omega)]
  have hdropEnd : (openC ++ mid ++ closeC ++ ws ++ rest).drop (2 + mid.length + 2) = ws ++ rest := by
    have h' : openC ++ mid ++ closeC ++ ws ++ rest = (openC ++ mid ++ closeC) ++ (ws ++ rest) := by
      simp [List.append_assoc]
    rw [h', List.drop_left' (by simp [openC, closeC, strL]; omega)]
  have hrest2 : ∀ c cs, rest = c :: cs → isPySpace c = false := by
    intro c cs hcc
    rw [hcc] at hrest
    simpa using hrest
  obtain ⟨htw, hdw⟩ := takeWhile_append_eq ws rest hws hrest2
  unfold leadingBlock
  rw [hopen, if_pos rfl, hfind]
  simp only [htake, hdropEnd, htw, hdw]

theorem splice_fst (c : Prop) [inst : Decidable c] (x : Str) :
    (if c then (x, false) else (x, true)).1 = x := by
  split <;> rfl

/-- C1: an input beginning with a block comment — the opening marker, an
interior `mid` in which the closing marker does not yet occur, the first
closing marker, a maximal whitespace run `ws` — whose leading block
contains one of the four header marker substrings: `update_file` replaces
exactly that block, producing the synthesized header followed by all bytes
`rest` after the block, unchanged. -/
theorem C1_marker_replacement (mid ws rest : Str) (created last : Option Str)
    (mode : Mode) (now : Str)
    (hfirst : ∀ j, j < mid.length → ¬ closeC <+: ((mid ++ closeC ++ (ws ++ rest)).drop j))
    (hws : ∀ c ∈ ws, isPySpace c = true)
    (hrest : isPySpace (rest.headD 'x') = false)
    (hmark : SubStr (strL "@Author") (openC ++ mid ++ closeC ++ ws)
      ∨ SubStr (strL "Author:") (openC ++ mid ++ closeC ++ ws)
      ∨ SubStr (strL "@LastEditTime") (openC ++ mid ++ closeC ++ ws)
      ∨ SubStr (strL "LastEditTime") (openC ++ mid ++ closeC ++ ws)) :
    (update_content (openC ++ mid ++ closeC ++ ws ++ rest) created last mode now).1 =
      build_header created (if mode = Mode.commit then some now else last)
        (detect_eol (openC ++ mid ++ closeC ++ ws ++ rest)) ++ rest := by
  have hlb := leadingBlock_spec _ _ _ hfirst hws hrest
  have hmk : hasMarkerTok (openC ++ mid ++ closeC ++ ws) = true := by
    rcases hmark with h | h | h | h <;>
      simp only [hasMarkerTok, SubStr_iff_containsSub.mp h, Bool.true_or, Bool.or_true]
  simp only [update_content, hlb, hmk, if_true]
  exact splice_fst _ _

/-- C2: when the leading block comment contains none of the four marker
substrings — or when no leading block comment exists at all, either because
the text does not open with the comment marker or because no closing marker
follows — `update_file` prepends the synthesized header and preserves the
original content verbatim. -/
theorem C2_foreign_block_prepend (orig : Str) (created last : Option Str)
    (mode : Mode) (now : Str)
    (h : (∃ mid ws rest, orig = openC ++ mid ++ closeC ++ ws ++ rest
            ∧ (∀ j, j < mid.length → ¬ closeC <+: ((mid ++ closeC ++ (ws ++ rest)).drop j))
            ∧ (∀ c ∈ ws, isPySpace c = true)
            ∧ isPySpace (rest.headD 'x') = false
            ∧ ¬ (SubStr (strL "@Author") (openC ++ mid ++ closeC ++ ws)
                 ∨ SubStr (strL "Author:") (openC ++ mid ++ closeC ++ ws)
                 ∨ SubStr (strL "@LastEditTime") (openC ++ mid ++ closeC ++ ws)
                 ∨ SubStr (strL "LastEditTime") (openC ++ mid ++ closeC ++ ws)))
      ∨ (∀ j, ¬ closeC <+: ((orig.drop 2).drop j))
      ∨ ¬ openC <+: orig) :
    (update_content orig created last mode now).1 =
      build_header created (if mode = Mode.commit then some now else last)
        (detect_eol orig) ++ orig := by
  rcases h with ⟨mid, ws, rest, horig, hfirst, hws, hrest, hno⟩ | hnoclose | hnoopen
  · subst horig
    have hlb := leadingBlock_spec _ _ _ hfirst hws hrest
    push_neg at hno
    obtain ⟨hn1, hn2, hn3, hn4⟩ := hno
    have hb1 : containsSub (strL "@Author") (openC ++ mid ++ closeC ++ ws) = false :=
      Bool.eq_false_iff.mpr (fun hx => hn1 (SubStr_iff_containsSub.mpr hx))
    have hb2 : containsSub (strL "Author:") (openC ++ mid ++ closeC ++ ws) = false :=
      Bool.eq_false_iff.mpr (fun hx => hn2 (SubStr_iff_containsSub.mpr hx))
    have hb3 : containsSub (strL "@LastEditTime") (openC ++ mid ++ closeC ++ ws) = false :=
      Bool.eq_false_iff.mpr (fun hx => hn3 (SubStr_iff_containsSub.mpr hx))
    have hb4 : containsSub (strL "LastEditTime") (openC ++ mid ++ closeC ++ ws) = false :=
      Bool.eq_false_iff.mpr (fun hx => hn4 (SubStr_iff_containsSub.mpr hx))
    have hmk : hasMarkerTok (openC ++ mid ++ closeC ++ ws) = false := by
      simp only [hasMarkerTok, hb1, hb2, hb3, hb4, Bool.or_self, Bool.false_or]
    simp only [update_content, hlb, hmk, Bool.false_eq_true, if_false]
    exact splice_fst _ _
  · have hlb : leadingBlock orig = none := by
      unfold leadingBlock
      cases hx : openC.isPrefixOf orig with
      | false => simp
      | true =>
        simp only [if_pos]
        rw [findSub_eq_none_iff.mpr hnoclose]
    simp only [update_content, hlb]
    exact splice_fst _ _
  · have hx : openC.isPrefixOf orig = false :=
      Bool.eq_false_iff.mpr (fun hb => hnoopen (isPrefixOf_iff.mp hb))
    have hlb : leadingBlock orig = none := by
      unfold leadingBlock
      simp [hx]
    simp only [update_content, hlb]
    exact splice_fst _ _

/-- Witness for C1 at the concrete file content `"/* @Author: x */\nint a;"`. -/
theorem C1_marker_replacement_witness :
    (∀ j, j < (strL " @Author: x ").length →
      ¬ closeC <+: ((strL " @Author: x " ++ closeC ++ (strL "\n" ++ strL "int a;")).drop j)) ∧
    (∀ c ∈ strL "\n", isPySpace c = true) ∧
    isPySpace ((strL "int a;").headD 'x') = false ∧
    SubStr (strL "@Author") (openC ++ strL " @Author: x " ++ closeC ++ strL "\n") ∧
    (update_content (openC ++ strL " @Author: x " ++ closeC ++ strL "\n" ++ strL "int a;")
        none none Mode.git []).1 =
      build_header none (if Mode.git = Mode.commit then some [] else none)
        (detect_eol (openC ++ strL " @Author: x " ++ closeC ++ strL "\n" ++ strL "int a;")) ++
        strL "int a;" :=
  ⟨by decide, by decide, by decide, ⟨strL "/* ", strL ": x */\n", by decide⟩,
    C1_marker_replacement (strL " @Author: x ") (strL "\n") (strL "int a;") none none Mode.git []
      (by decide) (by decide) (by decide)
      (Or.inl ⟨strL "/* ", strL ": x */\n", by decide⟩)⟩

/-- Witness for C2 at the concrete file content `"int a;"` (no leading block). -/
theorem C2_foreign_block_prepend_witness :
    (¬ openC <+: strL "int a;") ∧
    (update_content (strL "int a;") none none Mode.git []).1 =
      build_header none (if Mode.git = Mode.commit then some [] else none)
        (detect_eol (strL "int a;")) ++ strL "int a;" :=
  ⟨by decide, C2_foreign_block_prepend (strL "int a;") none none Mode.git []
    (Or.inr (Or.inr (by decide)))⟩

theorem detect_eol_cases (t : Str) : detect_eol t = lfS ∨ detect_eol t = crlfS := by
  unfold detect_eol
  split
  · exact Or.inr rfl
  · exact Or.inl rfl

theorem eol_space {eol : Str} (h : eol = lfS ∨ eol = crlfS) :
    ∀ c ∈ eol, isPySpace c = true := by
  rcases h with h | h <;> subst h <;> decide

theorem build_header_decomp (dc dl : Option Str) (eol : Str) :
    build_header dc dl eol = openC ++ header_mid dc dl eol ++ closeC ++ eol := by
  simp only [build_header, joinL, header_mid, openC, closeC, List.append_assoc,
    List.append_nil]
  rfl

theorem tsChar_ne_slash {c : Char} (h : tsChar c = true) : c ≠ '/' := by
  intro hc
  subst hc
  exact absurd h (by decide)

theorem noSlash_append {a b : Str} (ha : ∀ c ∈ a, c ≠ '/') (hb : ∀ c ∈ b, c ≠ '/') :
    ∀ c ∈ a ++ b, c ≠ '/' := by
  intro c hc
  rcases List.mem_append.mp hc with h | h
  exacts [ha c h, hb c h]

theorem noSlash_header_mid {dc dl : Option Str} {eol : Str}
    (heol : eol = lfS ∨ eol = crlfS) (hdc : tsOk dc = true) (hdl : tsOk dl = true) :
    ∀ c ∈ header_mid dc dl eol, c ≠ '/' := by
  have hdc2 : ∀ c ∈ dc.getD [], c ≠ '/' := fun c hc =>
    tsChar_ne_slash (List.all_eq_true.mp hdc c hc)
  have hdl2 : ∀ c ∈ dl.getD [], c ≠ '/' := fun c hc =>
    tsChar_ne_slash (List.all_eq_true.mp hdl c hc)
  have he : ∀ c ∈ eol, c ≠ '/' := by
    rcases heol with h | h <;> subst h <;> decide
  have l1 : ∀ c ∈ strL " * @Author: wuxiaoxiao", c ≠ '/' := by decide
  have l2 : ∀ c ∈ strL " * @Email: wuxiaoxiao@gmail.com", c ≠ '/' := by decide
  have l3 : ∀ c ∈ strL " * @Date: ", c ≠ '/' := by decide
  have l4 : ∀ c ∈ strL " * @LastEditors: wuxiaoxiao", c ≠ '/' := by decide
  have l5 : ∀ c ∈ strL " * @LastEditTime: ", c ≠ '/' := by decide
  have l6 : ∀ c ∈ strL " * @Description: ", c ≠ '/' := by decide
  have lsp : ∀ c ∈ ([' '] : Str), c ≠ '/' := by decide
  unfold header_mid
  exact noSlash_append (noSlash_append (noSlash_append (noSlash_append (noSlash_append
    (noSlash_append (noSlash_append (noSlash_append (noSlash_append (noSlash_append
    (noSlash_append (noSlash_append (noSlash_append (noSlash_append (noSlash_append
    he l1) he) l2) he) l3) hdc2) he) l4) he) l5) hdl2) he) l6) he) lsp

theorem first_close_of_noSlash {mid : Str} (tail : Str) (h : ∀ c ∈ mid, c ≠ '/') :
    ∀ j, j < mid.length → ¬ closeC <+: ((mid ++ closeC ++ tail).drop j) := by
  intro j hj hpre
  obtain ⟨t, ht⟩ := hpre
  have hslash : (mid ++ closeC ++ tail)[j + 1]? = some '/' := by
    have h1 : ((mid ++ closeC ++ tail).drop j)[1]? = some '/' := by
      rw [← ht, List.getElem?_append, if_pos (by decide : 1 < closeC.length)]
      decide
    rw [List.getElem?_drop] at h1
    exact h1
  have hassoc : mid ++ closeC ++ tail = mid ++ (closeC ++ tail) :=
    List.append_assoc mid closeC tail
  rw [hassoc, List.getElem?_append] at hslash
  rcases Nat.lt_or_ge (j + 1) mid.length with hlt | hge
  · rw [if_pos hlt] at hslash
    exact h '/' (List.getElem?_mem hslash) rfl
  · rw [if_neg (by omega)] at hslash
    have hje : j + 1 - mid.length = 0 := by omega
    rw [hje] at hslash
    have : (closeC ++ tail)[0]? = some '*' := rfl
    rw [this] at hslash
    exact absurd hslash (by decide)

theorem update_content_fst_shape (orig : Str) (created last : Option Str)
    (mode : Mode) (now : Str) :
    ∃ X, (update_content orig created last mode now).1 =
      build_header created (if mode = Mode.commit then some now else last)
        (detect_eol orig) ++ X := by
  unfold update_content
  cases h : leadingBlock orig with
  | none => exact ⟨orig, by simp only [h, splice_fst]⟩
  | some p =>
    obtain ⟨block, rest⟩ := p
    cases hm : hasMarkerTok block with
    | true => exact ⟨rest, by simp only [h, hm, if_true, splice_fst]⟩
    | false => exact ⟨orig, by simp only [h, hm, Bool.false_eq_true, if_false, splice_fst]⟩

theorem update_content_on_own_header (created last : Option Str) (now : Str) (eol X : Str)
    (hc : tsOk created = true) (hl : tsOk last = true)
    (heolv : eol = lfS ∨ eol = crlfS)
    (hhead : isPySpace (X.headD 'x') = false)
    (heq : detect_eol (build_header created last eol ++ X) = eol) :
    update_content (build_header created last eol ++ X) created last Mode.git now =
      (build_header created last eol ++ X, false) := by
  have hdec := build_header_decomp created last eol
  have hnos := noSlash_header_mid heolv hc hl
  have hfirst := first_close_of_noSlash (eol ++ X) hnos
  have hws := eol_space heolv
  have hlb : leadingBlock (build_header created last eol ++ X) =
      some (build_header created last eol, X) := by
    rw [hdec]
    exact leadingBlock_spec _ _ _ hfirst hws hhead
  have hsub : SubStr (strL "@Author") (build_header created last eol) := by
    refine ⟨openC ++ eol ++ strL " * ",
      strL ": wuxiaoxiao" ++ eol ++ strL " * @Email: wuxiaoxiao@gmail.com" ++ eol ++
        strL " * @Date: " ++ created.getD [] ++ eol ++ strL " * @LastEditors: wuxiaoxiao" ++
        eol ++ strL " * @LastEditTime: " ++ last.getD [] ++ eol ++
        strL " * @Description: " ++ eol ++ [' '] ++ closeC ++ eol, ?_⟩
    rw [hdec]
    unfold header_mid
    simp only [List.append_assoc]
    rfl
  have hmark : hasMarkerTok (build_header created last eol) = true := by
    simp only [hasMarkerTok, SubStr_iff_containsSub.mp hsub, Bool.true_or]
  have hmode : (if Mode.git = Mode.commit then some now else last) = last := rfl
  unfold update_content
  rw [heq, hmode, hlb]
  simp only [hmark, if_true, if_pos rfl]

/-- C3 (amended): a second `git`-mode run on the output of a first run, with
the same derived timestamps, produces byte-identical output and performs no
write, provided the timestamps are well-formed (digits, `'-'`, `':'`,
`' '`), the detected line ending of the first run's output equals that of
the original, and the content following the synthesized header in the
first run's output does not begin with a whitespace character. -/
theorem C3_idempotence_amended (orig : Str) (created last : Option Str) (now : Str)
    (hc : tsOk created = true) (hl : tsOk last = true)
    (heol : detect_eol (update_content orig created last Mode.git now).1 = detect_eol orig)
    (hhead : isPySpace (((update_content orig created last Mode.git now).1.drop
        (build_header created last (detect_eol orig)).length).headD 'x') = false) :
    update_content (update_content orig created last Mode.git now).1 created last Mode.git now =
      ((update_content orig created last Mode.git now).1, false) := by
  obtain ⟨X, hX⟩ := update_content_fst_shape orig created last Mode.git now
  have hmode : (if Mode.git = Mode.commit then some now else last) = last := rfl
  rw [hmode] at hX
  have hXeq : X = ((update_content orig created last Mode.git now).1).drop
      (build_header created last (detect_eol orig)).length := by
    rw [hX, List.drop_left]
  rw [← hXeq] at hhead
  rw [hX] at heol ⊢
  exact update_content_on_own_header created last now (detect_eol orig) X hc hl
    (detect_eol_cases orig) hhead heol

set_option maxRecDepth 8000 in
/-- Witness for C3 at the concrete file content `"int a;"` with concrete
well-formed timestamps. -/
theorem C3_idempotence_amended_witness :
    tsOk (some (strL "2024-01-01 10:00:00")) = true ∧
    tsOk (some (strL "2024-01-02 09:00:00")) = true ∧
    detect_eol (update_content (strL "int a;") (some (strL "2024-01-01 10:00:00"))
        (some (strL "2024-01-02 09:00:00")) Mode.git []).1 = detect_eol (strL "int a;") ∧
    isPySpace (((update_content (strL "int a;") (some (strL "2024-01-01 10:00:00"))
        (some (strL "2024-01-02 09:00:00")) Mode.git []).1.drop
        (build_header (some (strL "2024-01-01 10:00:00")) (some (strL "2024-01-02 09:00:00"))
          (detect_eol (strL "int a;"))).length).headD 'x') = false ∧
    update_content (update_content (strL "int a;") (some (strL "2024-01-01 10:00:00"))
        (some (strL "2024-01-02 09:00:00")) Mode.git []).1
        (some (strL "2024-01-01 10:00:00")) (some (strL "2024-01-02 09:00:00")) Mode.git [] =
      ((update_content (strL "int a;") (some (strL "2024-01-01 10:00:00"))
        (some (strL "2024-01-02 09:00:00")) Mode.git []).1, false) :=
  ⟨by decide, by decide, by decide, by decide,
    C3_idempotence_amended (strL "int a;") (some (strL "2024-01-01 10:00:00"))
      (some (strL "2024-01-02 09:00:00")) [] (by decide) (by decide) (by decide) (by decide)⟩

set_option maxRecDepth 8000 in
/-- C3 counterexample: for the content `" a"` (leading whitespace, no block
comment) the first `git`-mode run prepends the header; the second run, with
identical derived timestamps, matches the injected header AND the blank
that followed it (the regex absorbs trailing whitespace), so it rewrites
the file again: the output differs and a write occurs, refuting the claimed
idempotence. -/
theorem C3_counterexample :
    (update_content (update_content (strL " a") none none Mode.git []).1
        none none Mode.git []).1 ≠ (update_content (strL " a") none none Mode.git []).1 ∧
    (update_content (update_content (strL " a") none none Mode.git []).1
        none none Mode.git []).2 = true := by
  decide

theorem countSkip_drop (pat : Str) : ∀ (s : Str) (k : Nat),
    countSkip pat s k = countSub pat (s.drop k) := by
  intro s
  induction s with
  | nil => intro k; cases k <;> rfl
  | cons c rest ih =>
    intro k
    cases k with
    | zero => rfl
    | succ k' =>
      show countSkip pat rest k' = countSub pat (rest.drop k')
      exact ih k'

theorem countSub_cons (pat : Str) (c : Char) (rest : Str) :
    countSub pat (c :: rest) =
      if pat.isPrefixOf (c :: rest) = true then 1 + countSub pat (rest.drop (pat.length - 1))
      else countSub pat rest := by
  show countSkip pat (c :: rest) 0 = _
  rw [countSkip]
  rw [countSkip_drop pat rest (pat.length - 1)]
  rfl

theorem lfS_eq : lfS = ['\n'] := rfl

theorem crlfS_eq : crlfS = ['\r', '\n'] := rfl

theorem countSub_nil (pat : Str) : countSub pat [] = 0 := by
  cases pat <;> rfl

theorem countSub_lf_cons (c : Char) (t : Str) :
    countSub lfS (c :: t) = (if c = '\n' then 1 else 0) + countSub lfS t := by
  rw [countSub_cons]
  by_cases h : c = '\n'
  · subst h
    have hp : lfS.isPrefixOf ('\n' :: t) = true := by
      rw [lfS_eq]
      simp [List.isPrefixOf]
    rw [if_pos hp, if_pos rfl]
    rfl
  · have hp : ¬ lfS.isPrefixOf (c :: t) = true := by
      rw [lfS_eq]
      simp only [List.isPrefixOf, Bool.and_eq_true, beq_iff_eq]
      intro hx
      exact h hx.1.symm
    rw [if_neg hp, if_neg h]
    simp

theorem countSub_crlf_cons2 (c d : Char) (t : Str) :
    countSub crlfS (c :: d :: t) =
      if c = '\r' ∧ d = '\n' then 1 + countSub crlfS t else countSub crlfS (d :: t) := by
  rw [countSub_cons]
  by_cases h : c = '\r' ∧ d = '\n'
  · obtain ⟨h1, h2⟩ := h
    subst h1; subst h2
    have hp : crlfS.isPrefixOf ('\r' :: '\n' :: t) = true := by
      rw [crlfS_eq]
      simp [List.isPrefixOf]
    rw [if_pos hp, if_pos ⟨rfl, rfl⟩]
    rfl
  · have hp : ¬ crlfS.isPrefixOf (c :: d :: t) = true := by
      rw [crlfS_eq]
      simp only [List.isPrefixOf, Bool.and_eq_true, beq_iff_eq]
      intro hx
      exact h ⟨hx.1.symm, hx.2.1.symm⟩
    rw [if_neg hp, if_neg h]

theorem countSub_crlf_one (c : Char) : countSub crlfS [c] = 0 := by
  rw [countSub_cons]
  rw [if_neg]
  · rfl
  · intro hpre
    have hle := (isPrefixOf_iff.mp hpre).length_le
    rw [crlfS_eq] at hle
    simp at hle

theorem countLF_split_aux : ∀ (n : Nat) (s : Str), s.length ≤ n →
    countSub lfS s = countSub crlfS s + loneLF s := by
  intro n
  induction n with
  | zero =>
    intro s hs
    have : s = [] := List.eq_nil_of_length_eq_zero (Nat.le_zero.mp hs)
    subst this
    rfl
  | succ n ih =>
    intro s hs
    cases s with
    | nil => rfl
    | cons c t =>
      cases t with
      | nil =>
        rw [countSub_lf_cons, countSub_crlf_one, loneLF, countSub_nil]
        omega
      | cons d t2 =>
        have hdt : countSub lfS (d :: t2) = countSub crlfS (d :: t2) + loneLF (d :: t2) :=
          ih (d :: t2) (by simp at hs ⊢; omega)
        have ht2 : countSub lfS t2 = countSub crlfS t2 + loneLF t2 :=
          ih t2 (by simp at hs ⊢; omega)
        by_cases h : c = '\r' ∧ d = '\n'
        · obtain ⟨h1, h2⟩ := h
          subst h1; subst h2
          have hlf2 : countSub lfS ('\n' :: t2) = 1 + countSub lfS t2 := by
            rw [countSub_lf_cons, if_pos rfl]
          rw [countSub_lf_cons, countSub_crlf_cons2, loneLF,
            if_pos (⟨rfl, rfl⟩ : ('\r' : Char) = '\r' ∧ ('\n' : Char) = '\n'),
            if_pos (⟨rfl, rfl⟩ : ('\r' : Char) = '\r' ∧ ('\n' : Char) = '\n'),
            if_neg (by decide : ¬ ('\r' : Char) = '\n'), hlf2, ht2]
          omega
        · rw [countSub_lf_cons, countSub_crlf_cons2, loneLF, if_neg h, if_neg h, hdt]
          by_cases hc : c = '\n' <;> simp [hc] <;> omega

theorem countLF_split (s : Str) : countSub lfS s = countSub crlfS s + loneLF s :=
  countLF_split_aux s.length s (Nat.le_refl _)

/-- C4 (amended): `detect_eol` returns `'\r\n'` exactly when `'\r\n'`
occurs in the text and the number of `'\r\n'` occurrences is at least the
number of bare `'\n'` characters (newlines not part of a `'\r\n'` pair);
otherwise it returns `'\n'`.  Ties between the two are resolved in favour
of `'\r\n'`, not `'\n'`. -/
theorem C4_detect_eol_amended (text : Str) :
    detect_eol text =
      if containsSub crlfS text = true ∧ loneLF text ≤ countSub crlfS text then crlfS
      else lfS := by
  have hsplit := countLF_split text
  unfold detect_eol
  by_cases h1 : containsSub crlfS text = true
  · by_cases h2 : loneLF text ≤ countSub crlfS text
    · rw [if_pos ⟨h1, by rw [hsplit]; push_cast; omega⟩, if_pos ⟨h1, h2⟩]
    · rw [if_neg, if_neg (fun hk => h2 hk.2)]
      intro hk
      apply h2
      have hx := hk.2
      rw [hsplit] at hx
      push_cast at hx
      omega
  · rw [if_neg (fun hk => h1 hk.1), if_neg (fun hk => h1 hk.1)]

/-- C4 counterexample: in `"\r\n\n"` there is one `'\r\n'` and two `'\n'`
occurrences (one of them bare), so under the claimed majority vote with
ties going to `'\n'` — on either reading of the counts — the result should
be `'\n'`, and `'\r\n'` does not strictly predominate; yet `detect_eol`
returns `'\r\n'`. -/
theorem C4_counterexample :
    countSub crlfS (strL "\r\n\n") = 1 ∧ countSub lfS (strL "\r\n\n") = 2 ∧
    loneLF (strL "\r\n\n") = 1 ∧ detect_eol (strL "\r\n\n") = crlfS ∧ crlfS ≠ lfS := by
  decide

/-- C5: evaluation of `normalize_datetime` on git `%ci`-shaped timestamps.
A positive offset is stripped as the claim states, but a negative offset is
NOT stripped — `dt.split(' +')` finds no separator in a string ending
`' -0500'` — contradicting the claim and the function's own comment; empty
and absent inputs give `None` as claimed. -/
theorem C5_normalize_datetime_eval :
    normalize_datetime (some (strL "2024-01-02 03:04:05 +0800")) =
      some (strL "2024-01-02 03:04:05") ∧
    normalize_datetime (some (strL "2024-01-02 03:04:05 -0500")) =
      some (strL "2024-01-02 03:04:05 -0500") ∧
    normalize_datetime (some (strL "2024-01-02 03:04:05 -0500")) ≠
      some (strL "2024-01-02 03:04:05") ∧
    normalize_datetime (some []) = none ∧ normalize_datetime none = none := by
  decide

/-- C6 (amended): a version-control query failure signalled by a nonzero
git exit status (`subprocess.CalledProcessError`) is swallowed by
`run_git`, treated as "no data", and triggers the filesystem fallback: the
file is processed exactly as if git had returned nothing.  (Failures of
other exception classes are NOT swallowed; see the counterexample.) -/
theorem C6_procError_swallowed (orig : Str) (fmt : Int → Str)
    (st : Option (Int × Int)) (mode : Mode) (now : Str) :
    update_file orig GitRes.procError GitRes.procError fmt st mode now =
      Except.ok (update_content orig (get_fs_dates fmt st).1 (get_fs_dates fmt st).2
        mode now) := by
  unfold update_file get_git_dates run_git normalize_datetime fallback_dates
  simp [Bind.bind, Except.bind, Pure.pure, Except.pure]

/-- C6 counterexample: an exception that is not a `CalledProcessError`
(e.g. `FileNotFoundError` because the `git` executable is missing) is a
failure of the version-control query, yet it is not caught by `run_git`:
it propagates out of `update_file`, aborting the processing of that file
(the per-file handler in `main` then prints a warning naming it), refuting
"any failure ... is swallowed ... and never surfaces". -/
theorem C6_counterexample :
    update_file (strL "a") GitRes.exc GitRes.exc (fun _ => [])
        (some (0, 0)) Mode.git [] = Except.error () := by
  rfl

theorem main_loop_spec (f : Str → Except Str Bool) : ∀ (files : List Str) (k : Nat),
    main_loop f files k =
      (k + files.countP (fun x => match f x with | Except.ok true => true | _ => false),
       files.filterMap (fun x => match f x with
         | Except.error e => some (warnLine x e) | _ => none)) := by
  intro files
  induction files with
  | nil => intro k; simp [main_loop]
  | cons x xs ih =>
    intro k
    cases hf : f x with
    | ok b =>
      cases b with
      | false =>
        simp only [main_loop, hf, ih, List.countP_cons, List.filterMap_cons,
          Prod.mk.injEq]
        constructor
        · simp [hf]
        · simp [hf]
      | true =>
        simp only [main_loop, hf, ih, List.countP_cons, List.filterMap_cons,
          Prod.mk.injEq]
        constructor
        · simp [hf]; omega
        · simp [hf]
    | error e =>
      simp only [main_loop, hf, ih, List.countP_cons, List.filterMap_cons,
        Prod.mk.injEq]
      constructor
      · simp [hf]
      · simp [hf]

/-- C7: `main` always returns exit status 0 after attempting every file:
the changed count equals the number of files whose processing succeeded
with a write, a per-file exception contributes exactly one warning line
naming that file and does not prevent later files from being counted, and
the summary line reports the changed count. -/
theorem C7_main_contract (f : Str → Except Str Bool) (files : List Str) :
    (main_run f files).2.2 = 0 ∧
    (main_run f files).1 =
      files.countP (fun x => match f x with | Except.ok true => true | _ => false) ∧
    (main_run f files).2.1 =
      files.filterMap (fun x => match f x with
        | Except.error e => some (warnLine x e) | _ => none) ++
      [summaryLine (files.countP (fun x => match f x with
        | Except.ok true => true | _ => false))] := by
  have h := main_loop_spec f files 0
  unfold main_run
  rw [h]
  simp

/-- C8: in the filesystem fallback (no version-control data, successful
`stat`), both dates are populated: the created date is formatted from the
earlier of `st_ctime` and `st_mtime`, the last-edit date from `st_mtime`,
and — for any formatter monotone with respect to the string order, as the
fixed-width `'%Y-%m-%d %H:%M:%S'` rendering is — Date is at most
LastEditTime in string order. -/
theorem C8_fs_fallback (fmt : Int → Str) (ct mt : Int)
    (hmono : ∀ a b : Int, a ≤ b → strLeB (fmt a) (fmt b) = true) :
    fallback_dates none none fmt (some (ct, mt)) =
      (some (fmt (min ct mt)), some (fmt mt)) ∧
    strLeB (fmt (min ct mt)) (fmt mt) = true := by
  constructor
  · rfl
  · exact hmono _ _ (min_le_right ct mt)

/-- Witness for C8 with a constant (hence monotone) formatter at
timestamps 3 and 5. -/
theorem C8_fs_fallback_witness :
    fallback_dates none none (fun _ => strL "t") (some ((3 : Int), (5 : Int))) =
      (some ((fun _ => strL "t") (min (3 : Int) 5)), some ((fun _ => strL "t") (5 : Int))) ∧
    strLeB ((fun _ => strL "t") (min (3 : Int) 5)) ((fun _ => strL "t") (5 : Int)) = true :=
  C8_fs_fallback (fun _ => strL "t") 3 5 (fun _ _ _ => rfl)

theorem splitSkip_cons_zero (sep : Str) (c : Char) (rest acc : Str) :
    splitSkip sep (c :: rest) acc 0 =
      if sep ≠ ([] : Str) ∧ sep.isPrefixOf (c :: rest) = true then
        acc.reverse :: splitSkip sep rest [] (sep.length - 1)
      else splitSkip sep rest (c :: acc) 0 := rfl

theorem splitSkip_skip (sep : Str) : ∀ (x t : Str) (acc : Str),
    splitSkip sep (x ++ t) acc x.length = splitSkip sep t acc 0 := by
  intro x
  induction x with
  | nil => intro t acc; rfl
  | cons c x ih =>
    intro t acc
    show splitSkip sep (x ++ t) acc x.length = _
    exact ih t acc

theorem splitSkip_no_sep (sep : Str) (c0 : Char) (hsep : sep.head? = some c0) :
    ∀ (line : Str) (acc : Str), (∀ c ∈ line, c ≠ c0) →
      splitSkip sep line acc 0 = [acc.reverse ++ line] := by
  intro line
  induction line with
  | nil => intro acc h; simp [splitSkip]
  | cons a line ih =>
    intro acc h
    have ha : a ≠ c0 := h a (by simp)
    have hpre : ¬ (sep ≠ ([] : Str) ∧ sep.isPrefixOf (a :: line) = true) := by
      rintro ⟨-, hp⟩
      cases sep with
      | nil => simp at hsep
      | cons s0 srest =>
        have hs0 : s0 = c0 := by simpa using hsep
        subst hs0
        simp only [List.isPrefixOf, Bool.and_eq_true, beq_iff_eq] at hp
        exact ha hp.1.symm
    rw [splitSkip_cons_zero, if_neg hpre, ih (a :: acc) (fun c hc => h c (by simp [hc]))]
    simp

theorem splitSkip_through (sep : Str) (c0 : Char) (hsep : sep.head? = some c0) :
    ∀ (line t acc : Str), (∀ c ∈ line, c ≠ c0) →
      splitSkip sep (line ++ sep ++ t) acc 0 =
        (acc.reverse ++ line) :: splitSkip sep t [] 0 := by
  intro line
  induction line with
  | nil =>
    intro t acc _
    cases sep with
    | nil => simp at hsep
    | cons s0 srest =>
      rw [List.nil_append]
      have e : (s0 :: srest) ++ t = s0 :: (srest ++ t) := rfl
      rw [e, splitSkip_cons_zero, if_pos]
      · have hskip := splitSkip_skip (s0 :: srest) srest t []
        have hlen : (s0 :: srest).length - 1 = srest.length := by simp
        rw [hlen, hskip]
        simp
      · refine ⟨by simp, isPrefixOf_iff.mpr ⟨t, rfl⟩⟩
  | cons a line ih =>
    intro t acc h
    have ha : a ≠ c0 := h a (by simp)
    have e : (a :: line) ++ sep ++ t = a :: (line ++ sep ++ t) := by simp
    have hpre : ¬ (sep ≠ ([] : Str) ∧ sep.isPrefixOf (a :: (line ++ sep ++ t)) = true) := by
      rintro ⟨-, hp⟩
      cases sep with
      | nil => simp at hsep
      | cons s0 srest =>
        have hs0 : s0 = c0 := by simpa using hsep
        subst hs0
        simp only [List.isPrefixOf, Bool.and_eq_true, beq_iff_eq] at hp
        exact ha hp.1.symm
    rw [e, splitSkip_cons_zero, if_neg hpre,
      ih t (a :: acc) (fun c hc => h c (by simp [hc]))]
    simp

theorem splitOnL_joinL (sep : Str) (c0 : Char) (hsep : sep.head? = some c0) :
    ∀ (lines : List Str), lines ≠ [] → (∀ l ∈ lines, ∀ c ∈ l, c ≠ c0) →
      splitOnL sep (joinL sep lines) = lines := by
  intro lines
  induction lines with
  | nil => intro h _; exact absurd rfl h
  | cons l ls ih =>
    intro _ hall
    cases ls with
    | nil =>
      show splitSkip sep l [] 0 = [l]
      rw [splitSkip_no_sep sep c0 hsep l [] (hall l (by simp))]
      simp
    | cons l2 ls2 =>
      show splitSkip sep (l ++ sep ++ joinL sep (l2 :: ls2)) [] 0 = l :: l2 :: ls2
      rw [splitSkip_through sep c0 hsep l (joinL sep (l2 :: ls2)) [] (hall l (by simp))]
      have hrest := ih (by simp) (fun m hm => hall m (by simp [hm]))
      have e : splitSkip sep (joinL sep (l2 :: ls2)) [] 0 =
          splitOnL sep (joinL sep (l2 :: ls2)) := rfl
      rw [e, hrest]
      simp

/-- C9: splitting the rendered header on its line terminator yields exactly
the fixed lines in order — the comment opener, then the Author, Email,
Date, LastEditors, LastEditTime and Description fields, then the comment
closer and the empty piece left by the final terminator — with an absent
timestamp rendered as an empty string after its label, never as an omitted
field. -/
theorem C9_header_fields (dc dl : Option Str) (eol : Str)
    (heol : eol = lfS ∨ eol = crlfS)
    (hdc : (dc.getD []).all (fun c => !(c = '\n' || c = '\r')) = true)
    (hdl : (dl.getD []).all (fun c => !(c = '\n' || c = '\r')) = true) :
    splitOnL eol (build_header dc dl eol) =
      [strL "/*",
       strL " * @Author: wuxiaoxiao",
       strL " * @Email: wuxiaoxiao@gmail.com",
       strL " * @Date: " ++ dc.getD [],
       strL " * @LastEditors: wuxiaoxiao",
       strL " * @LastEditTime: " ++ dl.getD [],
       strL " * @Description: ",
       strL " */",
       []] := by
  have hdc2 : ∀ c ∈ dc.getD [], c ≠ '\n' ∧ c ≠ '\r' := by
    intro c hc
    have hx := List.all_eq_true.mp hdc c hc
    simp at hx
    exact hx
  have hdl2 : ∀ c ∈ dl.getD [], c ≠ '\n' ∧ c ≠ '\r' := by
    intro c hc
    have hx := List.all_eq_true.mp hdl c hc
    simp at hx
    exact hx
  rcases heol with he | he
  · subst he
    apply splitOnL_joinL lfS '\n' rfl _ (by simp)
    intro l hl
    simp only [List.mem_cons, List.not_mem_nil, or_false] at hl
    rcases hl with rfl | rfl | rfl | rfl | rfl | rfl | rfl | rfl | rfl
    · decide
    · decide
    · decide
    · intro c hc
      have hlit : ∀ c ∈ strL " * @Date: ", c ≠ '\n' := by decide
      rcases List.mem_append.mp hc with h | h
      · exact hlit c h
      · exact (hdc2 c h).1
    · decide
    · intro c hc
      have hlit : ∀ c ∈ strL " * @LastEditTime: ", c ≠ '\n' := by decide
      rcases List.mem_append.mp hc with h | h
      · exact hlit c h
      · exact (hdl2 c h).1
    · decide
    · decide
    · intro c hc; cases hc
  · subst he
    apply splitOnL_joinL crlfS '\r' rfl _ (by simp)
    intro l hl
    simp only [List.mem_cons, List.not_mem_nil, or_false] at hl
    rcases hl with rfl | rfl | rfl | rfl | rfl | rfl | rfl | rfl | rfl
    · decide
    · decide
    · decide
    · intro c hc
      have hlit : ∀ c ∈ strL " * @Date: ", c ≠ '\r' := by decide
      rcases List.mem_append.mp hc with h | h
      · exact hlit c h
      · exact (hdc2 c h).2
    · decide
    · intro c hc
      have hlit : ∀ c ∈ strL " * @LastEditTime: ", c ≠ '\r' := by decide
      rcases List.mem_append.mp hc with h | h
      · exact hlit c h
      · exact (hdl2 c h).2
    · decide
    · decide
    · intro c hc; cases hc

/-- Witness for C9: LF line endings, absent created date, concrete last
date. -/
theorem C9_header_fields_witness :
    ((strL "2024-01-02 03:04:05").all (fun c => !(c = '\n' || c = '\r')) = true) ∧
    splitOnL lfS (build_header none (some (strL "2024-01-02 03:04:05")) lfS) =
      [strL "/*", strL " * @Author: wuxiaoxiao", strL " * @Email: wuxiaoxiao@gmail.com",
       strL " * @Date: ", strL " * @LastEditors: wuxiaoxiao",
       strL " * @LastEditTime: 2024-01-02 03:04:05", strL " * @Description: ",
       strL " */", []] :=
  ⟨by decide, C9_header_fields none (some (strL "2024-01-02 03:04:05")) lfS (Or.inl rfl)
    (by decide) (by decide)⟩

/-- C10: every path produced by `list_target_files` from a nonempty
explicit argument list is either an absolute argument taken as given or a
non-absolute argument joined onto the script-derived repository root —
never a path resolved against the process working directory, which the
function does not consult. -/
theorem C10_args_resolved_against_root (root : Str) (is_file : Str → Bool)
    (scan : List Str) (files : List Str) (p : Str)
    (hne : files ≠ []) (hp : p ∈ list_target_files root is_file scan files) :
    (∃ f, f ∈ files ∧ os_isabs f = true ∧ p = f) ∨
    (∃ f, f ∈ files ∧ os_isabs f = false ∧ p = pathJoin root f) := by
  cases files with
  | nil => exact absurd rfl hne
  | cons g gs =>
    unfold list_target_files at hp
    have hp2 := List.mem_filter.mp hp
    obtain ⟨f, hf, hres⟩ := List.mem_map.mp hp2.1
    cases hab : os_isabs f with
    | true =>
      refine Or.inl ⟨f, hf, hab, ?_⟩
      rw [← hres]
      unfold resolve_arg
      rw [hab, if_pos rfl]
    | false =>
      refine Or.inr ⟨f, hf, hab, ?_⟩
      rw [← hres]
      unfold resolve_arg
      rw [hab]
      simp

/-- Witness for C10: the relative argument `"src/a.cpp"` with repository
root `"/repo"` resolves to `"/repo/src/a.cpp"`. -/
theorem C10_args_resolved_witness :
    ([strL "src/a.cpp"] ≠ ([] : List Str)) ∧
    strL "/repo/src/a.cpp" ∈
      list_target_files (strL "/repo") (fun _ => true) [] [strL "src/a.cpp"] ∧
    ((∃ f, f ∈ [strL "src/a.cpp"] ∧ os_isabs f = true ∧ strL "/repo/src/a.cpp" = f) ∨
     (∃ f, f ∈ [strL "src/a.cpp"] ∧ os_isabs f = false ∧
        strL "/repo/src/a.cpp" = pathJoin (strL "/repo") f)) :=
  ⟨by decide, by decide,
    C10_args_resolved_against_root (strL "/repo") (fun _ => true) [] [strL "src/a.cpp"]
      (strL "/repo/src/a.cpp") (by decide) (by decide)⟩
